import Mathlib

/-!
Verification of the secret-detection engine of `scripts/validate_files_structure.py`
(functions `search_potential_secrets`, `create_temp_white_list`,
`retrieve_related_yml`, `regex_for_secrets`, `calculate_shannon_entropy`).

Strings are modelled as `List Char` (the script processes unicode text; all
behaviour relevant here is over ASCII, and case folding is modelled as ASCII
case folding, matching Python's `str.lower` on ASCII input).  Python sets of
strings are modelled as lists whose iteration order, where it is observable
(the per-file set of deduplicated lines), is an explicit parameter.
-/

abbrev Str := List Char

/-- Python `string.digits`. -/
def ascii_digits : Str := "0123456789".toList

/-- Python `string.ascii_lowercase`. -/
def ascii_lowercase : Str := "abcdefghijklmnopqrstuvwxyz".toList

/-- Python `string.ascii_uppercase`. -/
def ascii_uppercase : Str := "ABCDEFGHIJKLMNOPQRSTUVWXYZ".toList

/-- Python `string.punctuation` (32 characters), given by character codes. -/
def ascii_punctuation : Str :=
  ([33, 34, 35, 36, 37, 38, 39, 40, 41, 42, 43, 44, 45, 46, 47,
    58, 59, 60, 61, 62, 63, 64, 91, 92, 93, 94, 95, 96, 123, 124, 125, 126].map Char.ofNat)

/-- Python `string.whitespace` (space, tab, linefeed, return, vertical tab, formfeed). -/
def ascii_whitespace : Str := ([32, 9, 10, 13, 11, 12].map Char.ofNat)

/-- Python `string.printable`: digits, then letters, then punctuation, then whitespace. -/
def string_printable : Str :=
  ascii_digits ++ ascii_lowercase ++ ascii_uppercase ++ ascii_punctuation ++ ascii_whitespace

/-- ASCII lower-casing of one character, as Python `str.lower` acts on ASCII text. -/
def pyLowerChar (c : Char) : Char :=
  if 65 ≤ c.toNat ∧ c.toNat ≤ 90 then Char.ofNat (c.toNat + 32) else c

/-- Lower-casing of a string (`s.lower()` on ASCII text). -/
def pyLower (s : Str) : Str := s.map pyLowerChar

/-- Whether `pat` is a prefix of `s` (Boolean, by character equality). -/
def isPrefixOfB : Str → Str → Bool
  | [], _ => true
  | _ :: _, [] => false
  | a :: as, b :: bs => a == b && isPrefixOfB as bs

/-- Python's substring test `pat in s` (the empty string is in every string). -/
def containsSubB (s pat : Str) : Bool :=
  match s with
  | [] => pat.isEmpty
  | _ :: rest => isPrefixOfB pat s || containsSubB rest pat

/-- Python `s.split(sep)` for a one-character separator: keeps empty fields. -/
def pySplitOn (sep : Char) : Str → List Str
  | [] => [[]]
  | c :: rest =>
    if c == sep then [] :: pySplitOn sep rest
    else
      match pySplitOn sep rest with
      | [] => [[c]]
      | f :: fs => (c :: f) :: fs

/-- Python `s.split()` with no argument: split on whitespace runs, dropping empty tokens. -/
def pySplitWs (s : Str) : List Str :=
  let rec go : Str → Str → List Str
    | [], acc => if acc.isEmpty then [] else [acc.reverse]
    | c :: rest, acc =>
      if c ∈ ascii_whitespace then
        if acc.isEmpty then go rest [] else acc.reverse :: go rest []
      else go rest (c :: acc)
  go s []

/-- The character set of the Python literal `"\"()[],'><:;\\"` used by
`str.strip` in the entropy pass, given by character codes:
double quote, parentheses, brackets, comma, single quote, angle brackets,
colon, semicolon, backslash. -/
def stripSet : Str :=
  ([34, 40, 41, 91, 93, 44, 39, 62, 60, 58, 59, 92].map Char.ofNat)

/-- Python `s.strip(chars)`: remove leading and trailing characters of the set. -/
def pyStrip (s : Str) : Str :=
  ((s.dropWhile (· ∈ stripSet)).reverse.dropWhile (· ∈ stripSet)).reverse

/-- Set union on string lists: the left operand plus unseen members of the right.
Models Python `set.union`; only membership is ever observed. -/
def swUnion (a b : List Str) : List Str :=
  a ++ b.filter (fun x => !(a.contains x))

/-- Deduplication keeping first occurrences; models `list(set(...))` and
`set(file_contents.split('\n'))` up to the (separately quantified) iteration order. -/
def dedupKeepFirst : List Str → List Str
  | [] => []
  | x :: xs => x :: (dedupKeepFirst xs).filter (fun y => !(x == y))

theorem mem_dedupKeepFirst (x : Str) (l : List Str) :
    x ∈ dedupKeepFirst l ↔ x ∈ l := by
  induction l with
  | nil => simp [dedupKeepFirst]
  | cons a as ih =>
    simp only [dedupKeepFirst, List.mem_cons, List.mem_filter]
    constructor
    · rintro (h | ⟨h, _⟩)
      · exact Or.inl h
      · exact Or.inr (ih.mp h)
    · rintro (h | h)
      · exact Or.inl h
      · by_cases hax : a = x
        · exact Or.inl hax.symm
        · refine Or.inr ⟨ih.mpr h, ?_⟩
          simp [beq_iff_eq, hax]

/-!
A small backtracking regular-expression engine reproducing Python `re`
semantics (leftmost match, alternation priority left to right, greedy
bounded/unbounded repetition) for the concrete patterns of the script.
Every repetition body in those patterns consumes at least one character on
any match, so dropping non-consuming body matches (done below purely to
bound the recursion) does not change the matched languages.
-/

inductive RE where
  | eps : RE
  | cls : (Char → Bool) → RE
  | cat : RE → RE → RE
  | alt : RE → RE → RE
  | rep : RE → Nat → Option Nat → RE

/-- All ways a greedy repetition can match a prefix of `s`, returned as the
list of remaining suffixes in backtracking priority order (most repetitions
first, stopping allowed once the lower bound is reached).  `body` gives the
suffixes after one body match; `fuel` bounds the number of iterations and is
initialised to `s.length + 1`, enough because each kept iteration consumes
at least one character. -/
def repMatch (body : Str → List Str) : Nat → Nat → Option Nat → Str → List Str
  | 0, lo, hi, s => if lo = 0 ∨ hi = some 0 then [s] else []
  | fuel + 1, lo, hi, s =>
    if hi = some 0 then [s]
    else
      ((body s).filter (fun t => t.length < s.length)).flatMap
        (fun t => repMatch body fuel (lo - 1) (hi.map (· - 1)) t)
      ++ (if lo = 0 then [s] else [])

/-- All suffixes remaining after a match of `r` against a prefix of `s`,
in backtracking priority order; the head is the match Python `re` selects. -/
def reMatches : RE → Str → List Str
  | RE.eps, s => [s]
  | RE.cls p, s =>
    match s with
    | [] => []
    | c :: rest => if p c then [rest] else []
  | RE.cat a b, s => (reMatches a s).flatMap (fun t => reMatches b t)
  | RE.alt a b, s => reMatches a s ++ reMatches b s
  | RE.rep a lo hi, s => repMatch (reMatches a) (s.length + 1) lo hi s

/-- Length of the match Python selects at the current position, if any. -/
def reFirstMatchLen (r : RE) (s : Str) : Option Nat :=
  match reMatches r s with
  | [] => none
  | t :: _ => some (s.length - t.length)

/-- Worker for `reFindAll`: scan left to right, emit each non-overlapping
match and continue after it (after an empty match, advance one character). -/
def reFindAllAux : Nat → RE → Str → List Str
  | 0, _, _ => []
  | fuel + 1, r, s =>
    match reFirstMatchLen r s with
    | some len =>
      if len = 0 then
        ([] : Str) :: (match s with
          | [] => []
          | _ :: rest => reFindAllAux fuel r rest)
      else (s.take len) :: reFindAllAux fuel r (s.drop len)
    | none =>
      match s with
      | [] => []
      | _ :: rest => reFindAllAux fuel r rest

/-- Python `re.findall` restricted to patterns whose groups (if any) wrap the
whole match, so the returned strings are the full matches. -/
def reFindAll (r : RE) (s : Str) : List Str := reFindAllAux (s.length + 1) r s

/-- A literal string as a regular expression. -/
def reLit (s : Str) : RE := s.foldr (fun c r => RE.cat (RE.cls (fun x => x == c)) r) RE.eps

/-- Optional part: Python `x?` (greedy). -/
def reOpt (r : RE) : RE := RE.rep r 0 (some 1)

/-- Exactly `n` repetitions: Python `x{n}`. -/
def reExact (r : RE) (n : Nat) : RE := RE.rep r n (some n)

/-- One or more repetitions: Python `x+`. -/
def rePlus (r : RE) : RE := RE.rep r 1 none

/-- Alternation of a non-empty list, priority left to right. -/
def reAlts : List RE → RE
  | [] => RE.eps
  | [r] => r
  | r :: rs => RE.alt r (reAlts rs)

/-! The concrete character classes and patterns of `regex_for_secrets` and
`create_temp_white_list`, transcribed from the raw-string literals of the
script.  In the IPv6 pattern the source writes `\\.` inside a raw string,
which the `re` module reads as an escaped backslash followed by `.` (any
character except newline); that is transcribed as written. -/

def isAsciiLetterB (c : Char) : Bool :=
  (97 ≤ c.toNat && c.toNat ≤ 122) || (65 ≤ c.toNat && c.toNat ≤ 90)

def isDigitB (c : Char) : Bool := 48 ≤ c.toNat && c.toNat ≤ 57

def isHexDigitB (c : Char) : Bool :=
  isDigitB c || (97 ≤ c.toNat && c.toNat ≤ 102) || (65 ≤ c.toNat && c.toNat ≤ 70)

/-- The class `[$-_@.&+]`: the range `$`(0x24)–`_`(0x5F); `@.&+` lie inside it. -/
def isDollarRangeB (c : Char) : Bool := 36 ≤ c.toNat && c.toNat ≤ 95

/-- The class `[!*\(\), ]`. -/
def isUrlPunctB (c : Char) : Bool := c.toNat ∈ [33, 42, 40, 41, 44, 32]

/-- The class `[/.-]` of date separators. -/
def isDateSepB (c : Char) : Bool := c.toNat ∈ [47, 46, 45]

/-- The class `[T\s]`. -/
def isTSepB (c : Char) : Bool := c.toNat = 84 || c ∈ ascii_whitespace

/-- The class `[a-zA-Z0-9_.+-]` of the email local part. -/
def isEmailLocalB (c : Char) : Bool :=
  isAsciiLetterB c || isDigitB c || c.toNat ∈ [95, 46, 43, 45]

/-- The class `[a-zA-Z0-9-]` of the email domain label. -/
def isEmailDomainB (c : Char) : Bool := isAsciiLetterB c || isDigitB c || c.toNat = 45

/-- The class `[a-zA-Z0-9-.]` of the email domain tail. -/
def isEmailTailB (c : Char) : Bool :=
  isAsciiLetterB c || isDigitB c || c.toNat ∈ [45, 46]

/-- `\S`: any non-whitespace character. -/
def isNonSpaceB (c : Char) : Bool := !(c ∈ ascii_whitespace)

/-- `.`: any character except newline. -/
def isAnyNoNl (c : Char) : Bool := c.toNat ≠ 10

def reDigit : RE := RE.cls isDigitB
def reHex16 : RE := RE.rep (RE.cls isHexDigitB) 1 (some 4)
def reColon : RE := RE.cls (fun c => c.toNat = 58)
def reDot : RE := RE.cls (fun c => c.toNat = 46)

/-- `http[s]?://(?:[a-zA-Z]|[0-9]|[$-_@.&+]|[!*\(\), ]|(?:%[0-9a-fA-F][0-9a-fA-F]))+` -/
def urlRE : RE :=
  RE.cat (reLit "http".toList)
    (RE.cat (reOpt (RE.cls (fun c => c == 's')))
      (RE.cat (reLit "://".toList)
        (rePlus (reAlts
          [RE.cls isAsciiLetterB,
           reDigit,
           RE.cls isDollarRangeB,
           RE.cls isUrlPunctB,
           RE.cat (RE.cls (fun c => c.toNat = 37)) (RE.cat (RE.cls isHexDigitB) (RE.cls isHexDigitB))]))))

/-- `[a-zA-Z0-9_.+-]+@[a-zA-Z0-9-]+\.[a-zA-Z0-9-.]+` -/
def emailRE : RE :=
  RE.cat (rePlus (RE.cls isEmailLocalB))
    (RE.cat (RE.cls (fun c => c.toNat = 64))
      (RE.cat (rePlus (RE.cls isEmailDomainB))
        (RE.cat reDot (rePlus (RE.cls isEmailTailB)))))

/-- Decimal octet in alternation order `25[0-5]|2[0-4][0-9]|[01]?[0-9][0-9]?` (IPv4 pattern). -/
def ipv4OctetRE : RE :=
  reAlts
    [RE.cat (reLit "25".toList) (RE.cls (fun c => 48 ≤ c.toNat && c.toNat ≤ 53)),
     RE.cat (RE.cls (fun c => c == '2')) (RE.cat (RE.cls (fun c => 48 ≤ c.toNat && c.toNat ≤ 52)) reDigit),
     RE.cat (reOpt (RE.cls (fun c => c.toNat = 48 || c.toNat = 49))) (RE.cat reDigit (reOpt reDigit))]

/-- `(?:(?:25[0-5]|2[0-4][0-9]|[01]?[0-9][0-9]?)\.){3}(?:25[0-5]|2[0-4][0-9]|[01]?[0-9][0-9]?)` -/
def ipv4RE : RE :=
  RE.cat (reExact (RE.cat ipv4OctetRE reDot) 3) ipv4OctetRE

/-- Decimal octet in alternation order `[0-9]|[1-9][0-9]|1[0-9]{2}|2[0-4][0-9]|25[0-5]`
(the order used inside the IPv6 pattern). -/
def ipv6DecOctetRE : RE :=
  reAlts
    [reDigit,
     RE.cat (RE.cls (fun c => 49 ≤ c.toNat && c.toNat ≤ 57)) reDigit,
     RE.cat (RE.cls (fun c => c == '1')) (reExact reDigit 2),
     RE.cat (RE.cls (fun c => c == '2')) (RE.cat (RE.cls (fun c => 48 ≤ c.toNat && c.toNat ≤ 52)) reDigit),
     RE.cat (reLit "25".toList) (RE.cls (fun c => 48 ≤ c.toNat && c.toNat ≤ 53))]

/-- The `(?:(?:octet)\\.){3}(?:octet)` tail of the IPv6 pattern: as written in
the source raw string, each octet is followed by a literal backslash and then
any character. -/
def ipv6V4TailRE : RE :=
  RE.cat
    (reExact (RE.cat ipv6DecOctetRE
      (RE.cat (RE.cls (fun c => c.toNat = 92)) (RE.cls isAnyNoNl))) 3)
    ipv6DecOctetRE

/-- `(?:[0-9A-Fa-f]{1,4}:[0-9A-Fa-f]{1,4}|v4tail)`, the common tail alternation. -/
def ipv6TailRE : RE :=
  RE.alt (RE.cat reHex16 (RE.cat reColon reHex16)) ipv6V4TailRE

/-- `[0-9A-Fa-f]{1,4}:` -/
def ipv6SegRE : RE := RE.cat reHex16 reColon

/-- The nine-way IPv6 alternation of the script, in source order. -/
def ipv6RE : RE :=
  reAlts
    [RE.cat (reExact ipv6SegRE 6) ipv6TailRE,
     RE.cat (reLit "::".toList) (RE.cat (reExact ipv6SegRE 5) ipv6TailRE),
     RE.cat (reOpt reHex16) (RE.cat (reLit "::".toList) (RE.cat (reExact ipv6SegRE 4) ipv6TailRE)),
     RE.cat (reOpt (RE.cat reHex16 (RE.cat reColon reHex16)))
       (RE.cat (reLit "::".toList) (RE.cat (reExact ipv6SegRE 3) ipv6TailRE)),
     RE.cat (reOpt (RE.cat (RE.rep ipv6SegRE 0 (some 2)) reHex16))
       (RE.cat (reLit "::".toList) (RE.cat (reExact ipv6SegRE 2) ipv6TailRE)),
     RE.cat (reOpt (RE.cat (RE.rep ipv6SegRE 0 (some 3)) reHex16))
       (RE.cat (reLit "::".toList) (RE.cat ipv6SegRE ipv6TailRE)),
     RE.cat (reOpt (RE.cat (RE.rep ipv6SegRE 0 (some 4)) reHex16))
       (RE.cat (reLit "::".toList) ipv6TailRE),
     RE.cat (reOpt (RE.cat (RE.rep ipv6SegRE 0 (some 5)) reHex16))
       (RE.cat (reLit "::".toList) reHex16),
     RE.cat (reOpt (RE.cat (RE.rep ipv6SegRE 0 (some 6)) reHex16)) (reLit "::".toList)]

/-- Sequential composition of a list of patterns. -/
def reSeq : List RE → RE
  | [] => RE.eps
  | [r] => r
  | r :: rs => RE.cat r (reSeq rs)

/-- `((\d{4}[/.-]\d{2}[/.-]\d{2})[T\s](\d{2}:?\d{2}:?\d{2}:?(\.\d{5,6})?([+-]\d{2}:?\d{2})?Z?)?)`;
group 1 wraps the whole pattern, so `findall`'s first tuple component is the
full match. -/
def datesRE : RE :=
  reSeq
    [reExact reDigit 4, RE.cls isDateSepB, reExact reDigit 2, RE.cls isDateSepB,
     reExact reDigit 2, RE.cls isTSepB,
     reOpt (reSeq
       [reExact reDigit 2, reOpt reColon, reExact reDigit 2, reOpt reColon,
        reExact reDigit 2, reOpt reColon,
        reOpt (RE.cat reDot (RE.rep reDigit 5 (some 6))),
        reOpt (reSeq
          [RE.cls (fun c => c.toNat = 43 || c.toNat = 45),
           reExact reDigit 2, reOpt reColon, reExact reDigit 2]),
        reOpt (RE.cls (fun c => c.toNat = 90))])]

/-- `regex_for_secrets(line)`: URL, email, IPv6 (discarding the bare `::`),
and IPv4 matches become potential secrets; date matches become false
positives.  Returns `(potential_secrets, false_positives)`. -/
def regex_for_secrets (line : Str) : List Str × List Str :=
  let urls := reFindAll urlRE line
  let emails := reFindAll emailRE line
  let ipv6s := (reFindAll ipv6RE line).filter (fun m => !(m == "::".toList))
  let ipv4s := reFindAll ipv4RE line
  let dates := reFindAll datesRE line
  (urls ++ emails ++ ipv6s ++ ipv4s, dates)

/-- `contextPath: (\S+\.+\S+)`: the full pattern including the 13-character
literal prefix; `findall` returns group 1, recovered by dropping the prefix. -/
def contextPathRE : RE :=
  RE.cat (reLit "contextPath: ".toList)
    (RE.cat (rePlus (RE.cls isNonSpaceB))
      (RE.cat (rePlus reDot) (rePlus (RE.cls isNonSpaceB))))

/-- `create_temp_white_list(file_contents)`: every `contextPath:` value,
split on `.`, each segment lower-cased, united into one set. -/
def create_temp_white_list (file_contents : Str) : List Str :=
  let context_paths := (reFindAll contextPathRE file_contents).map (fun m => m.drop 13)
  context_paths.foldl
    (fun acc context_path => swUnion acc ((pySplitOn '.' context_path).map pyLower)) []

/-! The entropy scorer and the scan orchestrator. -/

/-- `ENTROPY_THRESHOLD = 3.8`. -/
noncomputable def ENTROPY_THRESHOLD : ℝ := 3.8

/-- `calculate_shannon_entropy(data)`: for each of the 100 printable
characters, let `px` be its count in `data` divided by `len(data)`; add
`-px * log2(px)` whenever `px > 0`.  Empty data gives `0`. -/
noncomputable def calculate_shannon_entropy (data : Str) : ℝ :=
  if data = [] then 0
  else
    string_printable.foldl
      (fun entropy c =>
        let px : ℝ := (data.count c : ℝ) / (data.length : ℝ)
        if 0 < px then entropy + (-px * Real.logb 2 px) else entropy)
      0

/-- Decidable form of the threshold test `calculate_shannon_entropy data >= 3.8`
used by the scan: with `n` the length, `m` the number of printable characters
and `k c` the per-character counts, the real inequality is equivalent to the
integer inequality `2^(19n) * prod (k c)^(5 * k c) <= n^(5m)` (both sides are
logarithms base 2 scaled by `5n`); `entropy_threshold_test_correct` below
proves the equivalence. -/
def entropy_threshold_test (data : Str) : Bool :=
  !data.isEmpty &&
    2 ^ (19 * data.length) *
        (string_printable.map (fun c => (data.count c) ^ (5 * data.count c))).prod
      ≤ data.length ^ (5 * (string_printable.map (fun c => data.count c)).sum)

/-- The literal marker of the line filter: `disable-secrets-detection`. -/
def disableMarker : Str := "disable-secrets-detection".toList

/-- State threaded through the per-line loop of `search_potential_secrets`:
the growing whitelist (`secrets_white_list`), the per-file
`high_entropy_strings` and `regex_secrets` accumulators. -/
structure LineScanState where
  wl : List Str
  highEntropy : List Str
  regexSecrets : List Str
deriving Repr, DecidableEq

/-- One iteration of the `for line in set(file_contents.split('\n'))` loop:
skip marked lines (the accompanying `file_contents.replace(line, '')` has no
further effect, since the temporary whitelist was built and the line set
materialised before the loop); otherwise filter the pattern candidates
against the current whitelist, union in the false positives, then run the
entropy pass on the stripped tokens against the extended whitelist. -/
def scanLine (st : LineScanState) (line : Str) : LineScanState :=
  if containsSubB line disableMarker then st
  else
    let rs := regex_for_secrets line
    let kept := rs.1.filter
      (fun potential_secret => !(st.wl.any (fun w => containsSubB potential_secret w)))
    let wl2 := swUnion st.wl rs.2
    let newHigh := (pySplitWs line).filterMap (fun tok =>
      let string_ := pyStrip tok
      let string_lower := pyLower string_
      if !(wl2.any (fun w => containsSubB string_lower w)) && entropy_threshold_test string_
      then some string_ else none)
    { wl := wl2,
      highEntropy := st.highEntropy ++ newHigh,
      regexSecrets := st.regexSecrets ++ kept }

/-- The whole per-line loop over a given iteration order of the line set. -/
def scanLines (st : LineScanState) (lines : List Str) : LineScanState :=
  lines.foldl scanLine st

/-- `file_path.split('/')[-1]`. -/
def fileBaseName (path : Str) : Str := (pySplitOn '/' path).getLastD []

/-- `os.path.splitext(path)`: split off the extension at the last dot of the
final component, provided a non-dot character of that component precedes it. -/
def splitext (path : Str) : Str × Str :=
  let base := fileBaseName path
  let dirLen := path.length - base.length
  match (List.range base.length).filter (fun i => base.getD i ' ' == '.') |>.getLast? with
  | none => (path, [])
  | some d =>
    if (base.take d).any (fun c => !(c == '.')) then
      (path.take (dirLen + d), path.drop (dirLen + d))
    else (path, [])

/-- Python dict assignment `d[k] = v` on an association list. -/
def dictSet (d : List (Str × List Str)) (k : Str) (v : List Str) : List (Str × List Str) :=
  if d.any (fun kv => kv.1 == k) then d.map (fun kv => if kv.1 == k then (k, v) else kv)
  else d ++ [(k, v)]

/-- Python dict lookup `d.get(k)`. -/
def dictGet (d : List (Str × List Str)) (k : Str) : Option (List Str) :=
  (d.find? (fun kv => kv.1 == k)).map (·.2)

/-- State carried across files by `search_potential_secrets`: the growing
whitelist, the function-local `yml_file_contents` variable (`none` while not
yet assigned — using it then raises `UnboundLocalError`), and the report. -/
structure RunState where
  wl : List Str
  ymlVar : Option (Option Str)
  report : List (Str × List Str)
deriving Repr, DecidableEq

/-- One iteration of the `for file_path in secrets_file_paths` loop.
`ymlLookup` models `retrieve_related_yml`: the contents of the sibling
`.yml` file for a root path, if that file exists.  `orderOf` supplies the
iteration order of `set(file_contents.split('\n'))`.  A file whose extension
is not `.py` leaves `yml_file_contents` untouched; if the variable was never
assigned the run crashes (`Except.error`), and an empty-string yml content is
falsy in Python, so the file's own contents are used then. -/
def scanOneFile (ymlLookup : Str → Option Str) (orderOf : Str → List Str)
    (st : RunState) (file : Str × Str) : Except Unit RunState :=
  let file_path := file.1
  let file_contents := file.2
  let file_name := fileBaseName file_path
  let se := splitext file_path
  let ymlVar := if se.2 == ".py".toList then some (ymlLookup se.1) else st.ymlVar
  match ymlVar with
  | none => Except.error ()
  | some yml_file_contents =>
    let whitelist_source :=
      match yml_file_contents with
      | some y => if y.isEmpty then file_contents else y
      | none => file_contents
    let temp_white_list := create_temp_white_list whitelist_source
    let wl1 := swUnion st.wl temp_white_list
    let ls := scanLines { wl := wl1, highEntropy := [], regexSecrets := [] } (orderOf file_contents)
    let report :=
      if ls.highEntropy.isEmpty && ls.regexSecrets.isEmpty then st.report
      else dictSet st.report file_name (dedupKeepFirst (ls.highEntropy ++ ls.regexSecrets))
    Except.ok { wl := ls.wl, ymlVar := ymlVar, report := report }

/-- `search_potential_secrets(secrets_file_paths)`: fold `scanOneFile` over
the files, starting from the persistent whitelist, an unassigned
`yml_file_contents` and an empty report. -/
def search_potential_secrets (persistentWL : List Str) (ymlLookup : Str → Option Str)
    (orderOf : Str → List Str) (files : List (Str × Str)) :
    Except Unit (List (Str × List Str)) :=
  (files.foldlM (scanOneFile ymlLookup orderOf)
    { wl := persistentWL, ymlVar := none, report := [] }).map (·.report)

/-- A line order for a file's contents is legitimate when it enumerates the
deduplicated `'\n'`-split lines exactly once, in some order. -/
def ValidLineOrder (contents : Str) (order : List Str) : Prop :=
  order.Perm (dedupKeepFirst (pySplitOn '\n' contents))

instance (contents : Str) (order : List Str) : Decidable (ValidLineOrder contents order) :=
  inferInstanceAs (Decidable (order.Perm (dedupKeepFirst (pySplitOn '\n' contents))))

/-- The canonical order: first occurrences in textual order. -/
def canonicalOrder (contents : Str) : List Str := dedupKeepFirst (pySplitOn '\n' contents)

theorem canonicalOrder_valid (contents : Str) : ValidLineOrder contents (canonicalOrder contents) :=
  List.Perm.refl _

deriving instance DecidableEq for Except

set_option maxRecDepth 8000

/-! Facts about the entropy scorer. -/

theorem foldl_ite_add (f : Char → ℝ) (p : Char → Prop) [DecidablePred p] :
    ∀ (l : List Char) (a : ℝ),
      l.foldl (fun acc c => if p c then acc + f c else acc) a =
        a + ((l.filter (fun c => decide (p c))).map f).sum := by
  intro l
  induction l with
  | nil => intro a; simp
  | cons x xs ih =>
    intro a
    by_cases hx : p x
    · simp only [List.foldl_cons, List.filter_cons, hx, if_pos, decide_eq_true_eq,
        List.map_cons, List.sum_cons, ih (a + f x)]
      ring
    · simp [List.foldl_cons, List.filter_cons, if_neg hx, hx, ih a]

/-- The entropy of a string is the sum, over the printable characters of
positive count, of `-(count/len) * log2 (count/len)`; the empty string has
entropy `0` (its positive-count set is empty). -/
theorem calculate_shannon_entropy_eq_sum (data : Str) :
    calculate_shannon_entropy data =
      ((string_printable.filter (fun c => 0 < data.count c)).map
        (fun c => -(((data.count c : ℝ) / (data.length : ℝ)) *
          Real.logb 2 ((data.count c : ℝ) / (data.length : ℝ))))).sum := by
  by_cases h : data = []
  · subst h
    simp [calculate_shannon_entropy]
  · have hn : 0 < (data.length : ℝ) := by
      have : data.length ≠ 0 := by simpa [List.length_eq_zero] using h
      exact_mod_cast Nat.pos_of_ne_zero this
    have hstep := foldl_ite_add
      (fun c => -(((data.count c : ℝ) / (data.length : ℝ)) *
        Real.logb 2 ((data.count c : ℝ) / (data.length : ℝ))))
      (fun c => 0 < ((data.count c : ℝ) / (data.length : ℝ))) string_printable 0
    have hfilter :
        string_printable.filter
            (fun c => decide (0 < ((data.count c : ℝ) / (data.length : ℝ)))) =
          string_printable.filter (fun c => 0 < data.count c) := by
      apply List.filter_congr
      intro c _
      have : (0 < ((data.count c : ℝ) / (data.length : ℝ))) ↔ 0 < data.count c := by
        rw [div_pos_iff]
        constructor
        · rintro (⟨h1, _⟩ | ⟨_, h2⟩)
          · exact_mod_cast h1
          · linarith
        · intro hc
          exact Or.inl ⟨by exact_mod_cast hc, hn⟩
      simp [this]
    calc calculate_shannon_entropy data
        = string_printable.foldl
            (fun entropy c =>
              if 0 < ((data.count c : ℝ) / (data.length : ℝ)) then
                entropy + (-((data.count c : ℝ) / (data.length : ℝ)) *
                  Real.logb 2 ((data.count c : ℝ) / (data.length : ℝ)))
              else entropy) 0 := by
          simp only [calculate_shannon_entropy, if_neg h]
      _ = _ := by
          rw [show (fun entropy c =>
                if 0 < ((data.count c : ℝ) / (data.length : ℝ)) then
                  entropy + (-((data.count c : ℝ) / (data.length : ℝ)) *
                    Real.logb 2 ((data.count c : ℝ) / (data.length : ℝ)))
                else entropy) =
              (fun acc c =>
                if 0 < ((data.count c : ℝ) / (data.length : ℝ)) then
                  acc + (fun c => -(((data.count c : ℝ) / (data.length : ℝ)) *
                    Real.logb 2 ((data.count c : ℝ) / (data.length : ℝ)))) c
                else acc) from by funext acc c; ring_nf]
          rw [hstep, hfilter]
          ring

theorem sum_filter_eq_sum_of_zero (l : List Char) (f : Char → ℝ) (p : Char → Prop)
    [DecidablePred p] (h0 : ∀ c ∈ l, ¬p c → f c = 0) :
    ((l.filter (fun c => decide (p c))).map f).sum = (l.map f).sum := by
  induction l with
  | nil => simp
  | cons x xs ih =>
    have ih' := ih (fun c hc => h0 c (List.mem_cons_of_mem x hc))
    by_cases hx : p x
    · simp [List.filter_cons, hx, ih']
    · simp [List.filter_cons, hx, ih', h0 x (List.mem_cons_self x xs) hx]

theorem sum_map_div (l : List Char) (g : Char → ℝ) (D : ℝ) :
    (l.map (fun c => g c / D)).sum = (l.map g).sum / D := by
  induction l with
  | nil => simp
  | cons x xs ih => simp [ih, add_div]

theorem sum_map_sub (l : List Char) (u v : Char → ℝ) :
    (l.map (fun c => u c - v c)).sum = (l.map u).sum - (l.map v).sum := by
  induction l with
  | nil => simp
  | cons x xs ih => simp [ih]; ring

theorem sum_map_mul_const (l : List Char) (g : Char → ℝ) (A : ℝ) :
    (l.map (fun c => g c * A)).sum = (l.map g).sum * A := by
  induction l with
  | nil => simp
  | cons x xs ih => simp [ih, add_mul]

theorem self_pow_self_pos (k : ℕ) : 0 < k ^ k := by
  cases k with
  | zero => simp
  | succ j => exact Nat.pos_pow_of_pos _ (Nat.succ_pos j)

theorem log_prod_self_pow (l : List Char) (h : Char → Nat) :
    Real.log (((l.map (fun c => (h c) ^ (h c))).prod : ℕ) : ℝ) =
      (l.map (fun c => (h c : ℝ) * Real.log (h c))).sum := by
  induction l with
  | nil => simp
  | cons x xs ih =>
    have hx0 : (((h x) ^ (h x) : ℕ) : ℝ) ≠ 0 := by
      exact_mod_cast (self_pow_self_pos (h x)).ne'
    have hp0 : (((xs.map (fun c => (h c) ^ (h c))).prod : ℕ) : ℝ) ≠ 0 := by
      have : 0 < (xs.map (fun c => (h c) ^ (h c))).prod :=
        List.prod_pos (by
          intro a ha
          rcases List.mem_map.mp ha with ⟨c, _, rfl⟩
          exact self_pow_self_pos (h c))
      exact_mod_cast this.ne'
    simp only [List.map_cons, List.prod_cons, List.sum_cons]
    rw [Nat.cast_mul, Real.log_mul hx0 hp0, ih, Nat.cast_pow, Real.log_pow]

theorem prod_map_pow_five (l : List Char) (h : Char → Nat) :
    (l.map (fun c => (h c) ^ (5 * h c))).prod = ((l.map (fun c => (h c) ^ (h c))).prod) ^ 5 := by
  induction l with
  | nil => simp
  | cons x xs ih =>
    simp only [List.map_cons, List.prod_cons, ih, mul_pow]
    congr 1
    rw [Nat.mul_comm 5 (h x), pow_mul]


/-- Core computation behind the threshold test, stated over an arbitrary
character list `P` so that the 100-element printable list is never unfolded:
comparing the entropy sum with `19/5` is comparing two integer powers. -/
theorem entropy_test_core (P : List Char) (data : Str) (hd : data ≠ []) :
    (2 ^ (19 * data.length) * (P.map (fun c => (data.count c) ^ (5 * data.count c))).prod ≤
        data.length ^ (5 * (P.map (fun c => data.count c)).sum)) ↔
      (19 / 5 : ℝ) ≤
        ((P.filter (fun c => 0 < data.count c)).map
          (fun c => -(((data.count c : ℝ) / (data.length : ℝ)) *
            Real.logb 2 ((data.count c : ℝ) / (data.length : ℝ))))).sum := by
  have hn : 0 < data.length := List.length_pos.mpr hd
  have hnR : (0 : ℝ) < (data.length : ℝ) := by exact_mod_cast hn
  have hlog2 : (0 : ℝ) < Real.log 2 := Real.log_pos (by norm_num)
  have hPi0pos : 0 < (P.map (fun c => (data.count c) ^ (data.count c))).prod :=
    List.prod_pos (by
      intro a ha
      rcases List.mem_map.mp ha with ⟨c, _, rfl⟩
      exact self_pow_self_pos _)
  have hPi0R : (0 : ℝ) < (((P.map (fun c => (data.count c) ^ (data.count c))).prod : ℕ) : ℝ) := by
    exact_mod_cast hPi0pos
  have hterm : ∀ c ∈ P.filter (fun c => 0 < data.count c),
      (fun c => -(((data.count c : ℝ) / (data.length : ℝ)) *
        Real.logb 2 ((data.count c : ℝ) / (data.length : ℝ)))) c =
      (fun c => ((data.count c : ℝ) * (Real.log (data.length : ℝ) -
        Real.log (data.count c : ℝ))) / ((data.length : ℝ) * Real.log 2)) c := by
    intro c hc
    have hKc : 0 < data.count c := by
      have := (List.mem_filter.mp hc).2
      simpa using this
    have hKcR : (0 : ℝ) < (data.count c : ℝ) := by exact_mod_cast hKc
    simp only [Real.logb, Real.log_div hKcR.ne' hnR.ne']
    field_simp
    ring
  have hsum : ((P.filter (fun c => 0 < data.count c)).map
      (fun c => -(((data.count c : ℝ) / (data.length : ℝ)) *
        Real.logb 2 ((data.count c : ℝ) / (data.length : ℝ))))).sum =
      ((P.map (fun c => (data.count c : ℝ) * (Real.log (data.length : ℝ) -
        Real.log (data.count c : ℝ)))).sum) / ((data.length : ℝ) * Real.log 2) := by
    rw [List.map_congr_left hterm,
      sum_filter_eq_sum_of_zero P _ (fun c => 0 < data.count c)
        (by
          intro c _ hc
          have h0 : data.count c = 0 := Nat.eq_zero_of_not_pos hc
          simp [h0]),
      ← sum_map_div]
  have hsplit : (fun c => (data.count c : ℝ) * (Real.log (data.length : ℝ) -
      Real.log (data.count c : ℝ))) =
      (fun c => (data.count c : ℝ) * Real.log (data.length : ℝ) -
        (data.count c : ℝ) * Real.log (data.count c : ℝ)) := by
    funext c; ring
  have hcastsum : ((P.map (fun c => ((data.count c : ℕ) : ℝ))).sum) =
      (((P.map (fun c => data.count c)).sum : ℕ) : ℝ) := by
    rw [Nat.cast_list_sum, List.map_map]
    rfl
  have hS : ((P.map (fun c => (data.count c : ℝ) * (Real.log (data.length : ℝ) -
      Real.log (data.count c : ℝ)))).sum) =
      (((P.map (fun c => data.count c)).sum : ℕ) : ℝ) * Real.log (data.length : ℝ) -
        Real.log (((P.map (fun c => (data.count c) ^ (data.count c))).prod : ℕ) : ℝ) := by
    rw [hsplit, sum_map_sub, sum_map_mul_const, hcastsum, log_prod_self_pow P (fun c => data.count c)]
  have hProd5 : (P.map (fun c => (data.count c) ^ (5 * data.count c))).prod =
      ((P.map (fun c => (data.count c) ^ (data.count c))).prod) ^ 5 :=
    prod_map_pow_five P (fun c => data.count c)
  have h2powR : (0 : ℝ) < ((2 ^ (19 * data.length) : ℕ) : ℝ) := by
    have : 0 < 2 ^ (19 * data.length) := Nat.pos_pow_of_pos _ (by norm_num)
    exact_mod_cast this
  have hA : Real.log (((2 ^ (19 * data.length) *
      ((P.map (fun c => (data.count c) ^ (data.count c))).prod) ^ 5 : ℕ)) : ℝ) =
      ((19 * data.length : ℕ) : ℝ) * Real.log 2 +
        5 * Real.log (((P.map (fun c => (data.count c) ^ (data.count c))).prod : ℕ) : ℝ) := by
    rw [Nat.cast_mul, Real.log_mul h2powR.ne' (by
      have : (0 : ℝ) < (((((P.map (fun c => (data.count c) ^ (data.count c))).prod) ^ 5 : ℕ)) : ℝ) := by
        exact_mod_cast pow_pos hPi0pos 5
      exact this.ne'),
      Nat.cast_pow, Nat.cast_pow, Real.log_pow, Real.log_pow]
    push_cast
    ring
  have hB : Real.log (((data.length ^ (5 * (P.map (fun c => data.count c)).sum) : ℕ)) : ℝ) =
      ((5 * (P.map (fun c => data.count c)).sum : ℕ) : ℝ) * Real.log (data.length : ℝ) := by
    rw [Nat.cast_pow, Real.log_pow]
  rw [hsum, hS, hProd5]
  have hD : (0 : ℝ) < (data.length : ℝ) * Real.log 2 := mul_pos hnR hlog2
  rw [le_div_iff₀ hD]
  have hcast : (2 ^ (19 * data.length) *
      ((P.map (fun c => (data.count c) ^ (data.count c))).prod) ^ 5 ≤
        data.length ^ (5 * (P.map (fun c => data.count c)).sum)) ↔
      (((2 ^ (19 * data.length) *
        ((P.map (fun c => (data.count c) ^ (data.count c))).prod) ^ 5 : ℕ)) : ℝ) ≤
        (((data.length ^ (5 * (P.map (fun c => data.count c)).sum) : ℕ)) : ℝ) := by
    exact_mod_cast Iff.rfl
  rw [hcast, ← Real.log_le_log_iff (by positivity) (by
      exact_mod_cast Nat.pos_pow_of_pos _ hn),
    hA, hB]
  push_cast
  constructor
  · intro h; nlinarith
  · intro h; nlinarith

/-- The executable integer test used in the scan model agrees with the real
comparison `calculate_shannon_entropy(data) >= ENTROPY_THRESHOLD` of the
script. -/
theorem entropy_threshold_test_correct (data : Str) :
    entropy_threshold_test data = true ↔
      ENTROPY_THRESHOLD ≤ calculate_shannon_entropy data := by
  by_cases hd : data = []
  · subst hd
    simp only [entropy_threshold_test, calculate_shannon_entropy, ENTROPY_THRESHOLD]
    norm_num
  · have hbool : entropy_threshold_test data = true ↔
        2 ^ (19 * data.length) *
            (string_printable.map (fun c => (data.count c) ^ (5 * data.count c))).prod ≤
          data.length ^ (5 * (string_printable.map (fun c => data.count c)).sum) := by
      simp only [entropy_threshold_test, Bool.and_eq_true, decide_eq_true_eq,
        Bool.not_eq_true', List.isEmpty_eq_false]
      constructor
      · rintro ⟨_, h⟩; exact h
      · intro h; exact ⟨hd, h⟩
    have hthr : ENTROPY_THRESHOLD = (19 / 5 : ℝ) := by
      rw [ENTROPY_THRESHOLD]; norm_num
    rw [hbool, calculate_shannon_entropy_eq_sum, hthr]
    exact entropy_test_core string_printable data hd

/-! Structural facts about the per-line loop. -/

theorem mem_swUnion (x : Str) (a b : List Str) :
    x ∈ swUnion a b ↔ x ∈ a ∨ x ∈ b := by
  simp only [swUnion, List.mem_append, List.mem_filter, Bool.not_eq_true']
  constructor
  · rintro (h | ⟨h, _⟩)
    · exact Or.inl h
    · exact Or.inr h
  · rintro (h | h)
    · exact Or.inl h
    · by_cases ha : x ∈ a
      · exact Or.inl ha
      · refine Or.inr ⟨h, ?_⟩
        simpa using ha

theorem scanLine_wl_mono (st : LineScanState) (line : Str) (w : Str) (hw : w ∈ st.wl) :
    w ∈ (scanLine st line).wl := by
  unfold scanLine
  by_cases hm : containsSubB line disableMarker = true
  · simp [hm, hw]
  · simp only [Bool.not_eq_true] at hm
    simp [hm, mem_swUnion, hw]

theorem scanLines_wl_mono (lines : List Str) (st : LineScanState) (w : Str) (hw : w ∈ st.wl) :
    w ∈ (scanLines st lines).wl := by
  induction lines generalizing st with
  | nil => exact hw
  | cons l ls ih => exact ih (scanLine st l) (scanLine_wl_mono st l w hw)

/-- A token whose lower-cased form contains a whitelist entry already present
is never added by the entropy pass of one line. -/
theorem scanLine_covered_entropy (st : LineScanState) (line : Str) (w x : Str)
    (hw : w ∈ st.wl) (hcov : containsSubB (pyLower x) w = true)
    (hx : x ∈ (scanLine st line).highEntropy) : x ∈ st.highEntropy := by
  unfold scanLine at hx
  by_cases hm : containsSubB line disableMarker = true
  · simpa [hm] using hx
  · simp only [Bool.not_eq_true] at hm
    simp only [hm, Bool.false_eq_true, if_false, List.mem_append] at hx
    rcases hx with hx | hx
    · exact hx
    · exfalso
      rcases List.mem_filterMap.mp hx with ⟨tok, _, htok⟩
      by_cases hcheck :
          (!((swUnion st.wl (regex_for_secrets line).2).any
              (fun w => containsSubB (pyLower (pyStrip tok)) w)) &&
            entropy_threshold_test (pyStrip tok)) = true
      · simp only [hcheck, if_pos, Option.some.injEq] at htok
        subst htok
        have hsplit : ((swUnion st.wl (regex_for_secrets line).2).any
              (fun w => containsSubB (pyLower (pyStrip tok)) w)) = false ∧
            entropy_threshold_test (pyStrip tok) = true := by
          simpa [Bool.and_eq_true, Bool.not_eq_true'] using hcheck
        have hwin : w ∈ swUnion st.wl (regex_for_secrets line).2 :=
          (mem_swUnion w _ _).mpr (Or.inl hw)
        exact (List.any_eq_false.mp hsplit.1 w hwin) hcov
      · simp only [Bool.not_eq_true] at hcheck
        simp [hcheck] at htok

/-- Lifting of `scanLine_covered_entropy` over the whole line loop. -/
theorem scanLines_covered_entropy (lines : List Str) (st : LineScanState) (w x : Str)
    (hw : w ∈ st.wl) (hcov : containsSubB (pyLower x) w = true)
    (hx : x ∈ (scanLines st lines).highEntropy) : x ∈ st.highEntropy := by
  induction lines generalizing st with
  | nil => exact hx
  | cons l ls ih =>
    exact scanLine_covered_entropy st l w x hw hcov
      (ih (scanLine st l) (scanLine_wl_mono st l w hw) hx)

/-- A line containing the disable marker is a no-op of the line loop. -/
theorem scanLine_marker (st : LineScanState) (line : Str)
    (hm : containsSubB line disableMarker = true) : scanLine st line = st := by
  unfold scanLine
  simp [hm]

/-- The line loop ignores marked lines entirely: dropping them from the
iteration order leaves the whole state unchanged. -/
theorem scanLines_filter_marker (lines : List Str) (st : LineScanState) :
    scanLines st lines =
      scanLines st (lines.filter (fun l => !(containsSubB l disableMarker))) := by
  induction lines generalizing st with
  | nil => rfl
  | cons l ls ih =>
    by_cases hm : containsSubB l disableMarker = true
    · simp only [scanLines, List.foldl_cons, List.filter_cons, hm, Bool.not_true,
        Bool.false_eq_true, if_false, scanLine_marker st l hm]
      exact ih st
    · simp only [Bool.not_eq_true] at hm
      simp only [scanLines, List.foldl_cons, List.filter_cons, hm, Bool.not_false, if_true]
      exact ih (scanLine st l)

/-! Decomposition of the line loop into per-line contributions, used to
characterise exactly which candidates reach the finding lists. -/

/-- Whitelist evolution of one line: unchanged for marked lines, otherwise
extended by the line's false positives (the date matches). -/
def lineWl (wl : List Str) (line : Str) : List Str :=
  if containsSubB line disableMarker then wl
  else swUnion wl (regex_for_secrets line).2

/-- The pattern candidates a line contributes, given the whitelist in force
when the line is processed: the candidates not containing any whitelist entry
(checked case-sensitively on the raw candidate). -/
def lineRegexKept (wl : List Str) (line : Str) : List Str :=
  if containsSubB line disableMarker then []
  else (regex_for_secrets line).1.filter
    (fun potential_secret => !(wl.any (fun w => containsSubB potential_secret w)))

/-- The entropy candidates a line contributes: stripped tokens whose
lower-cased form contains no entry of the whitelist extended by this line's
false positives, and whose entropy reaches the threshold. -/
def lineEntropyKept (wl : List Str) (line : Str) : List Str :=
  if containsSubB line disableMarker then []
  else (pySplitWs line).filterMap (fun tok =>
    let string_ := pyStrip tok
    if !((swUnion wl (regex_for_secrets line).2).any
          (fun w => containsSubB (pyLower string_) w)) &&
        entropy_threshold_test string_
    then some string_ else none)

theorem scanLine_eq (st : LineScanState) (line : Str) :
    scanLine st line =
      { wl := lineWl st.wl line,
        highEntropy := st.highEntropy ++ lineEntropyKept st.wl line,
        regexSecrets := st.regexSecrets ++ lineRegexKept st.wl line } := by
  unfold scanLine lineWl lineEntropyKept lineRegexKept
  by_cases hm : containsSubB line disableMarker = true
  · simp [hm]
  · simp only [Bool.not_eq_true] at hm
    simp [hm]

/-- Per-line contributions chained along a list of lines, with the whitelist
evolving by `upd`. -/
def chainKept (kept upd : List Str → Str → List Str) : List Str → List Str → List Str
  | _, [] => []
  | wl, l :: ls => kept wl l ++ chainKept kept upd (upd wl l) ls

theorem scanLines_eq (lines : List Str) (st : LineScanState) :
    scanLines st lines =
      { wl := lines.foldl lineWl st.wl,
        highEntropy := st.highEntropy ++ chainKept lineEntropyKept lineWl st.wl lines,
        regexSecrets := st.regexSecrets ++ chainKept lineRegexKept lineWl st.wl lines } := by
  induction lines generalizing st with
  | nil => simp [scanLines, chainKept]
  | cons l ls ih =>
    simp only [scanLines, List.foldl_cons] at *
    rw [scanLine_eq st l, ih]
    simp [chainKept, List.append_assoc]

theorem chainKept_mem (kept upd : List Str → Str → List Str) (lines : List Str)
    (wl : List Str) (x : Str) :
    x ∈ chainKept kept upd wl lines ↔
      ∃ pre l suf, lines = pre ++ l :: suf ∧ x ∈ kept (pre.foldl upd wl) l := by
  induction lines generalizing wl with
  | nil =>
    simp only [chainKept, List.not_mem_nil, false_iff]
    rintro ⟨pre, l, suf, h, -⟩
    exact List.cons_ne_nil l suf (List.append_eq_nil.mp h.symm).2
  | cons a ls ih =>
    simp only [chainKept, List.mem_append, ih (upd wl a)]
    constructor
    · rintro (h | ⟨pre, l, suf, rfl, hx⟩)
      · exact ⟨[], a, ls, rfl, h⟩
      · exact ⟨a :: pre, l, suf, rfl, hx⟩
    · rintro ⟨pre, l, suf, heq, hx⟩
      cases pre with
      | nil =>
        simp only [List.nil_append, List.cons.injEq] at heq
        rcases heq with ⟨rfl, rfl⟩
        exact Or.inl hx
      | cons a' pre' =>
        simp only [List.cons_append, List.cons.injEq] at heq
        rcases heq with ⟨rfl, rfl⟩
        exact Or.inr ⟨pre', l, suf, rfl, hx⟩

theorem mem_lineRegexKept (wl : List Str) (line x : Str) :
    x ∈ lineRegexKept wl line ↔
      containsSubB line disableMarker = false ∧
      x ∈ (regex_for_secrets line).1 ∧
      ∀ w ∈ wl, containsSubB x w = false := by
  unfold lineRegexKept
  by_cases hm : containsSubB line disableMarker = true
  · simp [hm]
  · simp only [Bool.not_eq_true] at hm
    simp only [hm, Bool.false_eq_true, if_false, List.mem_filter, Bool.not_eq_true',
      true_and, and_congr_right_iff]
    intro _
    rw [List.any_eq_false]
    constructor
    · intro h w hw; exact Bool.not_eq_true _ ▸ (by simpa using h w hw)
    · intro h w hw; simp [h w hw]

theorem mem_lineEntropyKept (wl : List Str) (line x : Str) :
    x ∈ lineEntropyKept wl line ↔
      containsSubB line disableMarker = false ∧
      ∃ tok ∈ pySplitWs line, x = pyStrip tok ∧
        (∀ w ∈ swUnion wl (regex_for_secrets line).2,
          containsSubB (pyLower x) w = false) ∧
        entropy_threshold_test x = true := by
  unfold lineEntropyKept
  by_cases hm : containsSubB line disableMarker = true
  · simp [hm]
  · simp only [Bool.not_eq_true] at hm
    simp only [hm, Bool.false_eq_true, if_false, List.mem_filterMap, true_and]
    constructor
    · rintro ⟨tok, htok, hsome⟩
      by_cases hc : ((!((swUnion wl (regex_for_secrets line).2).any
            (fun w => containsSubB (pyLower (pyStrip tok)) w)) &&
          entropy_threshold_test (pyStrip tok)) = true)
      · simp only [hc, if_pos, Option.some.injEq] at hsome
        subst hsome
        have hsplit : ((swUnion wl (regex_for_secrets line).2).any
              (fun w => containsSubB (pyLower (pyStrip tok)) w)) = false ∧
            entropy_threshold_test (pyStrip tok) = true := by
          simpa [Bool.and_eq_true, Bool.not_eq_true'] using hc
        exact ⟨tok, htok, rfl,
          fun w hw => by simpa using List.any_eq_false.mp hsplit.1 w hw, hsplit.2⟩
      · simp only [Bool.not_eq_true] at hc
        simp [hc] at hsome
    · rintro ⟨tok, htok, rfl, hnone, hent⟩
      refine ⟨tok, htok, ?_⟩
      have hany : ((swUnion wl (regex_for_secrets line).2).any
          (fun w => containsSubB (pyLower (pyStrip tok)) w)) = false :=
        List.any_eq_false.mpr (fun w hw => by simp [hnone w hw])
      simp [hany, hent]

/-- A raw candidate containing a whitelist entry already present is never
added by the pattern pass of any line. -/
theorem scanLines_covered_regex (lines : List Str) (st : LineScanState) (w x : Str)
    (hw : w ∈ st.wl) (hcov : containsSubB x w = true)
    (hx : x ∈ (scanLines st lines).regexSecrets) : x ∈ st.regexSecrets := by
  induction lines generalizing st with
  | nil => exact hx
  | cons l ls ih =>
    have hx' := ih (scanLine st l) (scanLine_wl_mono st l w hw) hx
    rw [scanLine_eq st l] at hx'
    rcases List.mem_append.mp hx' with h | h
    · exact h
    · exfalso
      rcases (mem_lineRegexKept st.wl l x).mp h with ⟨-, -, hfree⟩
      rw [hfree w hw] at hcov
      exact Bool.false_ne_true hcov

theorem foldl_lineWl_mono (pre : List Str) (wl : List Str) (w : Str) (hw : w ∈ wl) :
    w ∈ pre.foldl lineWl wl := by
  have h := scanLines_wl_mono pre { wl := wl, highEntropy := [], regexSecrets := [] } w hw
  rw [scanLines_eq] at h
  exact h

theorem dictGet_dictSet_self (d : List (Str × List Str)) (k : Str) (v : List Str) :
    dictGet (dictSet d k v) k = some v := by
  unfold dictGet dictSet
  by_cases h : d.any (fun kv => kv.1 == k) = true
  · simp only [h, if_pos]
    induction d with
    | nil => simp at h
    | cons kv d ih =>
      by_cases hk : kv.1 == k
      · simp [hk, List.find?]
      · simp only [List.any_cons] at h
        rcases Bool.or_eq_true _ _ |>.mp h with h1 | h2
        · exact absurd h1 hk
        · simp only [List.map_cons, hk, Bool.false_eq_true, if_false]
          simpa [List.find?, hk] using ih h2
  · simp only [Bool.not_eq_true] at h
    simp only [h, Bool.false_eq_true, if_false]
    induction d with
    | nil => simp [List.find?]
    | cons kv d ih =>
      simp only [List.any_cons, Bool.or_eq_false_iff] at h
      simp only [List.find?_append]
      rw [List.find?_cons_of_neg _ (by simp [h.1])]
      have := ih h.2
      simpa [List.find?_append] using this

/-- Decomposition of one file step that succeeded: the line loop ran over
some whitelist extending the incoming one (by the contextual entries of the
resolved whitelist source), and the report was updated exactly when the file
yielded findings. -/
theorem scanOneFile_ok_decomp (y : Str → Option Str) (o : Str → List Str) (st : RunState)
    (B : Str × Str) (st' : RunState) (h : scanOneFile y o st B = Except.ok st') :
    ∃ wl1, (∀ w ∈ st.wl, w ∈ wl1) ∧
      st'.wl = (scanLines { wl := wl1, highEntropy := [], regexSecrets := [] } (o B.2)).wl ∧
      st'.report =
        (if (scanLines { wl := wl1, highEntropy := [], regexSecrets := [] } (o B.2)).highEntropy.isEmpty &&
            (scanLines { wl := wl1, highEntropy := [], regexSecrets := [] } (o B.2)).regexSecrets.isEmpty
         then st.report
         else dictSet st.report (fileBaseName B.1)
           (dedupKeepFirst ((scanLines { wl := wl1, highEntropy := [], regexSecrets := [] } (o B.2)).highEntropy ++
             (scanLines { wl := wl1, highEntropy := [], regexSecrets := [] } (o B.2)).regexSecrets))) := by
  unfold scanOneFile at h
  dsimp only at h
  cases hyv : (if (splitext B.1).2 == ".py".toList then some (y (splitext B.1).1) else st.ymlVar) with
  | none =>
    rw [hyv] at h
    cases h
  | some yv =>
    rw [hyv] at h
    cases yv with
    | none =>
      refine ⟨swUnion st.wl (create_temp_white_list B.2),
        fun w hw => (mem_swUnion w _ _).mpr (Or.inl hw), ?_, ?_⟩
      · cases h; rfl
      · cases h; rfl
    | some ymlc =>
      by_cases hemp : ymlc.isEmpty = true
      · simp only [hemp, if_true] at h
        refine ⟨swUnion st.wl (create_temp_white_list B.2),
          fun w hw => (mem_swUnion w _ _).mpr (Or.inl hw), ?_, ?_⟩
        · cases h; rfl
        · cases h; rfl
      · simp only [Bool.not_eq_true] at hemp
        simp only [hemp, Bool.false_eq_true, if_false] at h
        refine ⟨swUnion st.wl (create_temp_white_list ymlc),
          fun w hw => (mem_swUnion w _ _).mpr (Or.inl hw), ?_, ?_⟩
        · cases h; rfl
        · cases h; rfl

/-! Order-independence machinery for files that produce no false positives. -/

theorem lineWl_nodates (wl : List Str) (l : Str) (h : (regex_for_secrets l).2 = []) :
    lineWl wl l = wl := by
  unfold lineWl
  by_cases hm : containsSubB l disableMarker = true
  · simp [hm]
  · simp only [Bool.not_eq_true] at hm
    simp [hm, h, swUnion]

theorem foldl_lineWl_nodates (pre : List Str) (wl : List Str)
    (h : ∀ l ∈ pre, (regex_for_secrets l).2 = []) :
    pre.foldl lineWl wl = wl := by
  induction pre generalizing wl with
  | nil => rfl
  | cons a ls ih =>
    rw [List.foldl_cons, lineWl_nodates wl a (h a (List.mem_cons_self a ls))]
    exact ih wl (fun l hl => h l (List.mem_cons_of_mem a hl))

theorem chainKept_mem_nodates (kept : List Str → Str → List Str) (lines : List Str)
    (wl : List Str) (x : Str) (h : ∀ l ∈ lines, (regex_for_secrets l).2 = []) :
    x ∈ chainKept kept lineWl wl lines ↔ ∃ l ∈ lines, x ∈ kept wl l := by
  rw [chainKept_mem]
  constructor
  · rintro ⟨pre, l, suf, rfl, hx⟩
    rw [foldl_lineWl_nodates pre wl
      (fun l' hl' => h l' (List.mem_append.mpr (Or.inl hl')))] at hx
    exact ⟨l, List.mem_append.mpr (Or.inr (List.mem_cons_self l suf)), hx⟩
  · rintro ⟨l, hl, hx⟩
    rcases List.append_of_mem hl with ⟨pre, suf, rfl⟩
    refine ⟨pre, l, suf, rfl, ?_⟩
    rw [foldl_lineWl_nodates pre wl
      (fun l' hl' => h l' (List.mem_append.mpr (Or.inl hl')))]
    exact hx

/-! The claims. -/

/-- Claim C1, counterexample: contextual whitelist entries do leak across
files.  Scanning `b.py` alone reports its high-entropy token, but in a run
where `intA.py` (whose text seeds the contextual entry `w7xv2`) is scanned
first, the identical token of `b.py` is suppressed and the run reports
nothing — refuting "a candidate token of B covered only by entries extracted
from A is still reported for B". -/
theorem C1_counterexample :
    search_potential_secrets [] (fun _ => none) canonicalOrder
      [("intA.py".toList, "contextPath: kj9qz.w7xv2".toList),
       ("b.py".toList, "tok W7xv2Ham#Pq!bZ".toList)] = Except.ok [] ∧
    search_potential_secrets [] (fun _ => none) canonicalOrder
      [("b.py".toList, "tok W7xv2Ham#Pq!bZ".toList)] =
      Except.ok [("b.py".toList, ["W7xv2Ham#Pq!bZ".toList])] ∧
    "w7xv2".toList ∈ create_temp_white_list "contextPath: kj9qz.w7xv2".toList ∧
    containsSubB (pyLower "W7xv2Ham#Pq!bZ".toList) "w7xv2".toList = true ∧
    create_temp_white_list "tok W7xv2Ham#Pq!bZ".toList = [] :=
  ⟨by decide, by decide, by decide, by decide, by decide⟩

/-- Claim C1, amended: the whitelist is a single run-wide accumulator — every
entry present when a file is reached (persistent, contextual from earlier
files, or accumulated exemptions) is still present after that file is
scanned, and a candidate of the file covered by such an entry (lower-cased
for the entropy pass, raw for the pattern pass) is absent from the file's
reported findings. -/
theorem C1_amended_run_wide_whitelist (y : Str → Option Str) (o : Str → List Str)
    (st st' : RunState) (B : Str × Str) (hrun : scanOneFile y o st B = Except.ok st')
    (w : Str) (hw : w ∈ st.wl) :
    w ∈ st'.wl ∧
    ∀ x, containsSubB (pyLower x) w = true → containsSubB x w = true →
      dictGet st.report (fileBaseName B.1) = none →
      ∀ fs, dictGet st'.report (fileBaseName B.1) = some fs → x ∉ fs := by
  rcases scanOneFile_ok_decomp y o st B st' hrun with ⟨wl1, hmono, hwl, hrep⟩
  have hw1 : w ∈ wl1 := hmono w hw
  constructor
  · rw [hwl]
    exact scanLines_wl_mono _ _ w hw1
  · intro x hcovL hcovR hnone fs hfs hxfs
    rw [hrep] at hfs
    by_cases hempty :
        ((scanLines { wl := wl1, highEntropy := [], regexSecrets := [] } (o B.2)).highEntropy.isEmpty &&
          (scanLines { wl := wl1, highEntropy := [], regexSecrets := [] } (o B.2)).regexSecrets.isEmpty) = true
    · rw [if_pos hempty] at hfs
      rw [hnone] at hfs
      cases hfs
    · rw [if_neg hempty, dictGet_dictSet_self] at hfs
      cases hfs
      rcases List.mem_append.mp ((mem_dedupKeepFirst _ _).mp hxfs) with hx | hx
      · have := scanLines_covered_entropy (o B.2)
          { wl := wl1, highEntropy := [], regexSecrets := [] } w x hw1 hcovL hx
        simp at this
      · have := scanLines_covered_regex (o B.2)
          { wl := wl1, highEntropy := [], regexSecrets := [] } w x hw1 hcovR hx
        simp at this

/-- Witness for the amended C1 at a concrete run state and file. -/
theorem C1_amended_run_wide_whitelist_witness :
    "7xv2".toList ∈ (RunState.mk ["7xv2".toList] (some none) []).wl ∧
    ∀ x, containsSubB (pyLower x) "7xv2".toList = true →
      containsSubB x "7xv2".toList = true →
      dictGet (RunState.mk ["7xv2".toList] (some none) []).report
        (fileBaseName ("b.py".toList, "tok W7xv2Ham#Pq!bZ".toList).1) = none →
      ∀ fs, dictGet (RunState.mk ["7xv2".toList] (some none) []).report
          (fileBaseName ("b.py".toList, "tok W7xv2Ham#Pq!bZ".toList).1) = some fs → x ∉ fs :=
  C1_amended_run_wide_whitelist (fun _ => none) canonicalOrder
    (RunState.mk ["7xv2".toList] (some none) [])
    (RunState.mk ["7xv2".toList] (some none) [])
    ("b.py".toList, "tok W7xv2Ham#Pq!bZ".toList) (by decide) "7xv2".toList (by decide)

/-- Claim C2, counterexample: a line carrying the disable marker is skipped by
the line loop but is not removed before classification — its `contextPath:`
value still seeds the contextual whitelist (the temporary whitelist is built
from the full text before the loop, and the in-loop `replace` has no effect).
Scanning the file as is yields nothing, while scanning the text with the
marker line actually removed reports the token, so the scan does not behave
"as if that line were removed". -/
theorem C2_counterexample :
    search_potential_secrets [] (fun _ => none) canonicalOrder
      [("f.py".toList,
        "contextPath: kj9qz.w7xv2 disable-secrets-detection\ntok W7xv2Ham#Pq!bZ".toList)] =
      Except.ok [] ∧
    search_potential_secrets [] (fun _ => none) canonicalOrder
      [("f.py".toList,
        List.intercalate "\n".toList
          ((pySplitOn '\n'
            "contextPath: kj9qz.w7xv2 disable-secrets-detection\ntok W7xv2Ham#Pq!bZ".toList).filter
            (fun l => !(containsSubB l disableMarker))))] =
      Except.ok [("f.py".toList, ["W7xv2Ham#Pq!bZ".toList])] ∧
    "w7xv2".toList ∈ create_temp_white_list
      "contextPath: kj9qz.w7xv2 disable-secrets-detection\ntok W7xv2Ham#Pq!bZ".toList ∧
    containsSubB (pyLower "W7xv2Ham#Pq!bZ".toList) "w7xv2".toList = true :=
  ⟨by decide, by decide, by decide, by decide⟩

/-- Claim C2, amended: a marker line yields no pattern candidates, no entropy
candidates and no exemptions (the loop treats it as absent), but the
contextual whitelist is extracted from the full original text, so
`contextPath:` values on a marker line still enter it. -/
theorem C2_amended_marker_lines :
    (∀ (st : LineScanState) (lines : List Str),
      scanLines st lines =
        scanLines st (lines.filter (fun l => !(containsSubB l disableMarker)))) ∧
    "w7xv2".toList ∈ create_temp_white_list
      "contextPath: kj9qz.w7xv2 disable-secrets-detection".toList ∧
    containsSubB "contextPath: kj9qz.w7xv2 disable-secrets-detection".toList
      disableMarker = true :=
  ⟨fun st lines => scanLines_filter_marker lines st, by decide, by decide⟩

/-- Claim C3: the `yml_file_contents` variable is assigned only when a `.py`
file is scanned, so a non-`.py` file scanned after a `.py` file with a
sibling yml derives its contextual whitelist from that stale yml text instead
of its own text: `d.json`'s own `contextPath: ham7...` entry would cover its
token, yet the token is reported.  A run whose first file is not `.py`
crashes on the unassigned variable (`UnboundLocalError`), modelled as
`Except.error`. -/
theorem C3_stale_yml_contents :
    search_potential_secrets []
      (fun r => if r == "p".toList then some "contextPath: kj9qz.w7xv2".toList else none)
      canonicalOrder
      [("p.py".toList, "hello".toList),
       ("d.json".toList, "contextPath: ham7.w9kz\ntok Ham7Qx!2vP#bZw".toList)] =
      Except.ok [("d.json".toList, ["Ham7Qx!2vP#bZw".toList])] ∧
    "ham7".toList ∈ create_temp_white_list
      "contextPath: ham7.w9kz\ntok Ham7Qx!2vP#bZw".toList ∧
    containsSubB (pyLower "Ham7Qx!2vP#bZw".toList) "ham7".toList = true ∧
    search_potential_secrets [] (fun _ => none) canonicalOrder
      [("d.json".toList, "contextPath: ham7.w9kz\ntok Ham7Qx!2vP#bZw".toList)] =
      Except.error () :=
  ⟨by decide, by decide, by decide, by decide⟩

/-- Claim C4, counterexample: the coverage check on pattern candidates is
case-sensitive on the raw candidate, not on its lower-cased form, and it is
not re-applied at report time.  With persistent whitelist `example`, the URL
`https://EXAMPLE.com` — whose lower-cased form contains `example` — is still
reported, refuting "the finding list contains exactly those candidates whose
lowercased form contains no entry of the effective whitelist". -/
theorem C4_counterexample :
    search_potential_secrets ["example".toList] (fun _ => none) canonicalOrder
      [("e.py".toList, "see https://EXAMPLE.com".toList)] =
      Except.ok [("e.py".toList, ["https://EXAMPLE.com".toList])] ∧
    containsSubB (pyLower "https://EXAMPLE.com".toList) "example".toList = true :=
  ⟨by decide, by decide⟩

/-- Claim C4, amended: for a file scanned with effective starting whitelist
`wl0` (persistent plus contextual) and line order `lines`, the merged finding
list contains exactly: the stripped tokens whose lower-cased form contains no
entry of the whitelist as extended when their line was processed (including
that line's date exemptions) and whose entropy reaches the threshold, plus
the pattern candidates whose raw text contains no entry of the whitelist as
of their line.  The check happens once, at classification time; nothing is
re-checked at report time. -/
theorem C4_amended_finding_characterization (wl0 : List Str) (lines : List Str) (x : Str) :
    (x ∈ dedupKeepFirst
        ((scanLines { wl := wl0, highEntropy := [], regexSecrets := [] } lines).highEntropy ++
         (scanLines { wl := wl0, highEntropy := [], regexSecrets := [] } lines).regexSecrets)) ↔
      ((∃ pre l suf, lines = pre ++ l :: suf ∧
          containsSubB l disableMarker = false ∧
          ∃ tok ∈ pySplitWs l, x = pyStrip tok ∧
            (∀ w ∈ swUnion (pre.foldl lineWl wl0) (regex_for_secrets l).2,
              containsSubB (pyLower x) w = false) ∧
            entropy_threshold_test x = true) ∨
       (∃ pre l suf, lines = pre ++ l :: suf ∧
          containsSubB l disableMarker = false ∧
          x ∈ (regex_for_secrets l).1 ∧
          ∀ w ∈ pre.foldl lineWl wl0, containsSubB x w = false)) := by
  rw [mem_dedupKeepFirst, List.mem_append, scanLines_eq]
  simp only [List.nil_append]
  have hE : x ∈ chainKept lineEntropyKept lineWl wl0 lines ↔
      (∃ pre l suf, lines = pre ++ l :: suf ∧
        containsSubB l disableMarker = false ∧
        ∃ tok ∈ pySplitWs l, x = pyStrip tok ∧
          (∀ w ∈ swUnion (pre.foldl lineWl wl0) (regex_for_secrets l).2,
            containsSubB (pyLower x) w = false) ∧
          entropy_threshold_test x = true) := by
    rw [chainKept_mem]
    constructor
    · rintro ⟨pre, l, suf, rfl, hx⟩
      rcases (mem_lineEntropyKept _ l x).mp hx with ⟨hm, htok⟩
      exact ⟨pre, l, suf, rfl, hm, htok⟩
    · rintro ⟨pre, l, suf, rfl, hm, htok⟩
      exact ⟨pre, l, suf, rfl, (mem_lineEntropyKept _ l x).mpr ⟨hm, htok⟩⟩
  have hR : x ∈ chainKept lineRegexKept lineWl wl0 lines ↔
      (∃ pre l suf, lines = pre ++ l :: suf ∧
        containsSubB l disableMarker = false ∧
        x ∈ (regex_for_secrets l).1 ∧
        ∀ w ∈ pre.foldl lineWl wl0, containsSubB x w = false) := by
    rw [chainKept_mem]
    constructor
    · rintro ⟨pre, l, suf, rfl, hx⟩
      rcases (mem_lineRegexKept _ l x).mp hx with ⟨hm, hmem, hfree⟩
      exact ⟨pre, l, suf, rfl, hm, hmem, hfree⟩
    · rintro ⟨pre, l, suf, rfl, hm, hmem, hfree⟩
      exact ⟨pre, l, suf, rfl, (mem_lineRegexKept _ l x).mpr ⟨hm, hmem, hfree⟩⟩
  rw [hE, hR]

/-- Claim C5, counterexample: a date/time literal recognised in full by the
date recogniser can itself appear in the finding list.  The exemption keeps
its original case (`T`, `Z`) while the entropy pass compares whitelist
entries against the lower-cased token, so the literal is not covered by its
own exemption, and its entropy exceeds the threshold. -/
theorem C5_counterexample :
    reFindAll datesRE "2019/34.56T78:01:23:.45678+90:12Z".toList =
      ["2019/34.56T78:01:23:.45678+90:12Z".toList] ∧
    search_potential_secrets [] (fun _ => none) canonicalOrder
      [("t.py".toList, "2019/34.56T78:01:23:.45678+90:12Z".toList)] =
      Except.ok [("t.py".toList, ["2019/34.56T78:01:23:.45678+90:12Z".toList])] :=
  ⟨by decide, by decide⟩

/-- Claim C5, amended: every date-recogniser match of a line is returned as a
false positive of that line, enters the working whitelist before the entropy
pass of the same line, and any token whose lower-cased stripped form contains
the match is suppressed from the entropy findings of this and all later
lines.  (A literal containing uppercase characters is not covered by its own
exemption and can still be reported — see the counterexample.) -/
theorem C5_amended_date_exemptions (st : LineScanState) (line : Str) (d x : Str)
    (hm : containsSubB line disableMarker = false)
    (hd : d ∈ (regex_for_secrets line).2)
    (hcov : containsSubB (pyLower x) d = true) :
    (regex_for_secrets line).2 = reFindAll datesRE line ∧
    d ∈ (scanLine st line).wl ∧
    x ∉ lineEntropyKept st.wl line ∧
    (∀ ls, x ∈ (scanLines (scanLine st line) ls).highEntropy → x ∈ st.highEntropy) := by
  have hdwl : d ∈ (scanLine st line).wl := by
    rw [scanLine_eq]
    unfold lineWl
    simp only [hm, Bool.false_eq_true, if_false]
    exact (mem_swUnion d _ _).mpr (Or.inr hd)
  refine ⟨rfl, hdwl, ?_, ?_⟩
  · intro hx
    rcases (mem_lineEntropyKept st.wl line x).mp hx with ⟨-, tok, -, rfl, hfree, -⟩
    have := hfree d ((mem_swUnion d _ _).mpr (Or.inr hd))
    rw [this] at hcov
    exact Bool.false_ne_true hcov
  · intro ls hx
    have hstep := scanLines_covered_entropy ls (scanLine st line) d x hdwl hcov hx
    rw [scanLine_eq] at hstep
    rcases List.mem_append.mp hstep with h | h
    · exact h
    · exfalso
      rcases (mem_lineEntropyKept st.wl line x).mp h with ⟨-, tok, -, rfl, hfree, -⟩
      have := hfree d ((mem_swUnion d _ _).mpr (Or.inr hd))
      rw [this] at hcov
      exact Bool.false_ne_true hcov

/-- Witness for the amended C5 at a concrete line whose date match is the
whole line. -/
theorem C5_amended_date_exemptions_witness :
    (regex_for_secrets "2024-01-05 12:00:00".toList).2 =
      reFindAll datesRE "2024-01-05 12:00:00".toList ∧
    "2024-01-05 12:00:00".toList ∈
      (scanLine (LineScanState.mk [] [] []) "2024-01-05 12:00:00".toList).wl ∧
    "2024-01-05 12:00:00".toList ∉
      lineEntropyKept (LineScanState.mk [] [] []).wl "2024-01-05 12:00:00".toList ∧
    (∀ ls, "2024-01-05 12:00:00".toList ∈
        (scanLines (scanLine (LineScanState.mk [] [] []) "2024-01-05 12:00:00".toList) ls).highEntropy →
      "2024-01-05 12:00:00".toList ∈ (LineScanState.mk [] [] []).highEntropy) :=
  C5_amended_date_exemptions (LineScanState.mk [] [] []) "2024-01-05 12:00:00".toList
    "2024-01-05 12:00:00".toList "2024-01-05 12:00:00".toList
    (by decide) (by decide) (by decide)

/-- Claim C6, counterexample: a whitespace token of a scanned line of which a
whitelist entry is (case-insensitively) a substring can still appear in the
finding list, because pattern candidates are filtered by case-sensitive
containment on the raw text: entry `example` covers the token
`https://EXAMPLE.com` case-insensitively, yet the URL is reported. -/
theorem C6_counterexample :
    "https://EXAMPLE.com".toList ∈ pySplitWs "go https://EXAMPLE.com".toList ∧
    containsSubB (pyLower "https://EXAMPLE.com".toList) (pyLower "example".toList) = true ∧
    search_potential_secrets ["example".toList] (fun _ => none) canonicalOrder
      [("g.py".toList, "go https://EXAMPLE.com".toList)] =
      Except.ok [("g.py".toList, ["https://EXAMPLE.com".toList])] :=
  ⟨by decide, by decide, by decide⟩

/-- Claim C6, amended: if a whitelist entry (persistent or contextual) is a
substring of the lower-cased stripped token, the token never surfaces as an
entropy-based finding, regardless of its entropy; pattern-based candidates
are filtered case-sensitively on their raw text instead and can still
surface it. -/
theorem C6_amended_entropy_whitelisting (persist temp : List Str) (lines : List Str)
    (w x : Str) (hw : w ∈ persist ∨ w ∈ temp)
    (hcov : containsSubB (pyLower x) w = true) :
    x ∉ (scanLines { wl := swUnion persist temp, highEntropy := [], regexSecrets := [] }
      lines).highEntropy := by
  intro hx
  have := scanLines_covered_entropy lines
    { wl := swUnion persist temp, highEntropy := [], regexSecrets := [] } w x
    ((mem_swUnion w persist temp).mpr hw) hcov hx
  simp at this

/-- Witness for the amended C6 at a concrete whitelist, line and token. -/
theorem C6_amended_entropy_whitelisting_witness :
    "api.key.placeholder".toList ∉
      (scanLines { wl := swUnion ["api.key".toList] [], highEntropy := [], regexSecrets := [] }
        ["token: api.key.placeholder".toList]).highEntropy :=
  C6_amended_entropy_whitelisting ["api.key".toList] [] ["token: api.key.placeholder".toList]
    "api.key".toList "api.key.placeholder".toList (Or.inl (by decide)) (by decide)

/-- Claim C7: `calculate_shannon_entropy` is the Shannon entropy over the 100
printable characters — the sum, over printable characters of positive count,
of `-(count/len) * log2(count/len)` — and the empty string has entropy 0. -/
theorem C7_shannon_entropy_formula (data : Str) :
    string_printable.length = 100 ∧
    calculate_shannon_entropy data =
      ((string_printable.filter (fun c => 0 < data.count c)).map
        (fun c => -(((data.count c : ℝ) / (data.length : ℝ)) *
          Real.logb 2 ((data.count c : ℝ) / (data.length : ℝ))))).sum ∧
    calculate_shannon_entropy [] = 0 :=
  ⟨by decide, calculate_shannon_entropy_eq_sum data, by simp [calculate_shannon_entropy]⟩

/-- Claim C8: with whitelist `api.key`, the line `token: ax7$Qz9!mP2#vL`
yields exactly the token `ax7$Qz9!mP2#vL` as an entropy-based finding (no
pattern candidate, and its real entropy reaches 3.8), while the line
`token: api.key.placeholder` yields nothing because `api.key` is a substring
of the lower-cased token. -/
theorem C8_scenario :
    search_potential_secrets ["api.key".toList] (fun _ => none) canonicalOrder
      [("a.py".toList, "token: ax7$Qz9!mP2#vL".toList)] =
      Except.ok [("a.py".toList, ["ax7$Qz9!mP2#vL".toList])] ∧
    lineEntropyKept ["api.key".toList] "token: ax7$Qz9!mP2#vL".toList =
      ["ax7$Qz9!mP2#vL".toList] ∧
    lineRegexKept ["api.key".toList] "token: ax7$Qz9!mP2#vL".toList = [] ∧
    ENTROPY_THRESHOLD ≤ calculate_shannon_entropy "ax7$Qz9!mP2#vL".toList ∧
    search_potential_secrets ["api.key".toList] (fun _ => none) canonicalOrder
      [("a.py".toList, "token: api.key.placeholder".toList)] = Except.ok [] ∧
    containsSubB (pyLower "api.key.placeholder".toList) "api.key".toList = true :=
  ⟨by decide, by decide, by decide,
   (entropy_threshold_test_correct "ax7$Qz9!mP2#vL".toList).mp (by decide),
   by decide, by decide⟩

/-- Claim C9, counterexample: the per-file finding set depends on the
iteration order of the deduplicated lines.  Both orders below are valid
enumerations of the same two-line file; processed dates-first, the date
exemption (accumulated from the first line) suppresses the URL pattern
candidate of the second line and nothing is reported, while processed
URL-first the URL is reported. -/
theorem C9_counterexample :
    ValidLineOrder "2024-01-05T12:34:56\nhttps://A.co/2024-01-05T12:34:56".toList
      ["2024-01-05T12:34:56".toList, "https://A.co/2024-01-05T12:34:56".toList] ∧
    ValidLineOrder "2024-01-05T12:34:56\nhttps://A.co/2024-01-05T12:34:56".toList
      ["https://A.co/2024-01-05T12:34:56".toList, "2024-01-05T12:34:56".toList] ∧
    search_potential_secrets ["a.co".toList] (fun _ => none)
      (fun _ => ["2024-01-05T12:34:56".toList, "https://A.co/2024-01-05T12:34:56".toList])
      [("c9.py".toList, "2024-01-05T12:34:56\nhttps://A.co/2024-01-05T12:34:56".toList)] =
      Except.ok [] ∧
    search_potential_secrets ["a.co".toList] (fun _ => none)
      (fun _ => ["https://A.co/2024-01-05T12:34:56".toList, "2024-01-05T12:34:56".toList])
      [("c9.py".toList, "2024-01-05T12:34:56\nhttps://A.co/2024-01-05T12:34:56".toList)] =
      Except.ok [("c9.py".toList, ["https://A.co/2024-01-05T12:34:56".toList])] :=
  ⟨by decide, by decide, by decide, by decide⟩

/-- Claim C9, amended: the per-file scan is a deterministic function of the
file's text, the whitelist state at the start of the file and the iteration
order of the deduplicated lines; the finding set is independent of that
order whenever no line produces a date false positive (with exemptions
present the order can change the result — see the counterexample). -/
theorem C9_amended_order_independence (wl0 : List Str) (o1 o2 : List Str) (x : Str)
    (hperm : o1.Perm o2)
    (hnod : ∀ l ∈ o1, (regex_for_secrets l).2 = []) :
    (x ∈ (scanLines { wl := wl0, highEntropy := [], regexSecrets := [] } o1).highEntropy ↔
     x ∈ (scanLines { wl := wl0, highEntropy := [], regexSecrets := [] } o2).highEntropy) ∧
    (x ∈ (scanLines { wl := wl0, highEntropy := [], regexSecrets := [] } o1).regexSecrets ↔
     x ∈ (scanLines { wl := wl0, highEntropy := [], regexSecrets := [] } o2).regexSecrets) := by
  have hnod2 : ∀ l ∈ o2, (regex_for_secrets l).2 = [] :=
    fun l hl => hnod l (hperm.mem_iff.mpr hl)
  rw [scanLines_eq o1 _, scanLines_eq o2 _]
  simp only [List.nil_append]
  constructor
  · rw [chainKept_mem_nodates lineEntropyKept o1 wl0 x hnod,
      chainKept_mem_nodates lineEntropyKept o2 wl0 x hnod2]
    constructor
    · rintro ⟨l, hl, hx⟩; exact ⟨l, hperm.mem_iff.mp hl, hx⟩
    · rintro ⟨l, hl, hx⟩; exact ⟨l, hperm.mem_iff.mpr hl, hx⟩
  · rw [chainKept_mem_nodates lineRegexKept o1 wl0 x hnod,
      chainKept_mem_nodates lineRegexKept o2 wl0 x hnod2]
    constructor
    · rintro ⟨l, hl, hx⟩; exact ⟨l, hperm.mem_iff.mp hl, hx⟩
    · rintro ⟨l, hl, hx⟩; exact ⟨l, hperm.mem_iff.mpr hl, hx⟩

/-- Witness for the amended C9 on a concrete two-line file with no dates. -/
theorem C9_amended_order_independence_witness :
    ("W7xv2Ham#Pq!bZ".toList ∈
        (scanLines { wl := [], highEntropy := [], regexSecrets := [] }
          ["hello".toList, "tok W7xv2Ham#Pq!bZ".toList]).highEntropy ↔
     "W7xv2Ham#Pq!bZ".toList ∈
        (scanLines { wl := [], highEntropy := [], regexSecrets := [] }
          ["tok W7xv2Ham#Pq!bZ".toList, "hello".toList]).highEntropy) ∧
    ("W7xv2Ham#Pq!bZ".toList ∈
        (scanLines { wl := [], highEntropy := [], regexSecrets := [] }
          ["hello".toList, "tok W7xv2Ham#Pq!bZ".toList]).regexSecrets ↔
     "W7xv2Ham#Pq!bZ".toList ∈
        (scanLines { wl := [], highEntropy := [], regexSecrets := [] }
          ["tok W7xv2Ham#Pq!bZ".toList, "hello".toList]).regexSecrets) :=
  C9_amended_order_independence []
    ["hello".toList, "tok W7xv2Ham#Pq!bZ".toList]
    ["tok W7xv2Ham#Pq!bZ".toList, "hello".toList]
    "W7xv2Ham#Pq!bZ".toList (by decide) (by decide)

/-- Claim C10: the report is keyed by file basename.  In a run scanning `A`
then `B` with the same basename, where `A` produced the findings `fA` and the
final report has an entry `fB` for the basename, the report consists of that
single entry — the later file's findings — and `fA` (when different) appears
nowhere in it. -/
theorem C10_basename_overwrite (y : Str → Option Str) (o : Str → List Str)
    (persist : List Str) (A B : Str × Str) (stA stB : RunState) (fA fB : List Str)
    (hA : scanOneFile y o { wl := persist, ymlVar := none, report := [] } A = Except.ok stA)
    (hB : scanOneFile y o stA B = Except.ok stB)
    (hbase : fileBaseName A.1 = fileBaseName B.1)
    (hfA : stA.report = [(fileBaseName A.1, fA)])
    (hfB : dictGet stB.report (fileBaseName B.1) = some fB) :
    search_potential_secrets persist y o [A, B] = Except.ok stB.report ∧
    stB.report = [(fileBaseName B.1, fB)] ∧
    (fA ≠ fB → ∀ kv ∈ stB.report, kv.2 ≠ fA) := by
  have hrun : search_potential_secrets persist y o [A, B] = Except.ok stB.report := by
    simp [search_potential_secrets, List.foldlM, bind, Except.bind, hA, hB, Except.map, pure, Except.pure]
  rcases scanOneFile_ok_decomp y o stA B stB hB with ⟨wl1, -, -, hrep⟩
  have hset : stB.report = [(fileBaseName B.1, fB)] := by
    by_cases hempty :
        ((scanLines { wl := wl1, highEntropy := [], regexSecrets := [] } (o B.2)).highEntropy.isEmpty &&
          (scanLines { wl := wl1, highEntropy := [], regexSecrets := [] } (o B.2)).regexSecrets.isEmpty) = true
    · rw [if_pos hempty] at hrep
      have hgetA : dictGet stB.report (fileBaseName B.1) = some fA := by
        rw [hrep, hfA]
        simp [dictGet, hbase, List.find?]
      have : fA = fB := Option.some_inj.mp (hgetA.symm.trans hfB)
      rw [hrep, hfA, hbase, this]
    · rw [if_neg hempty] at hrep
      have hself := dictGet_dictSet_self stA.report (fileBaseName B.1)
        (dedupKeepFirst
          ((scanLines { wl := wl1, highEntropy := [], regexSecrets := [] } (o B.2)).highEntropy ++
           (scanLines { wl := wl1, highEntropy := [], regexSecrets := [] } (o B.2)).regexSecrets))
      rw [← hrep, hfB] at hself
      have hv := Option.some_inj.mp hself
      rw [hrep, hfA, hv]
      unfold dictSet
      simp [hbase, List.any_cons]
  refine ⟨hrun, hset, ?_⟩
  intro hne kv hkv
  rw [hset] at hkv
  rcases List.mem_singleton.mp hkv with rfl
  exact fun h => hne (by simpa using h.symm)

/-- Witness for C10: two files `a/x.py` and `b/x.py` that each yield one
distinct high-entropy finding; the report holds only the later one. -/
theorem C10_basename_overwrite_witness :
    search_potential_secrets [] (fun _ => none) canonicalOrder
      [("a/x.py".toList, "k Qm4v!pZ8#xW1$aK".toList),
       ("b/x.py".toList, "k Rt5u&wY3%zN6^eH".toList)] =
      Except.ok (RunState.mk [] (some none) [("x.py".toList, ["Rt5u&wY3%zN6^eH".toList])]).report ∧
    (RunState.mk [] (some none) [("x.py".toList, ["Rt5u&wY3%zN6^eH".toList])]).report =
      [(fileBaseName ("b/x.py".toList, "k Rt5u&wY3%zN6^eH".toList).1, ["Rt5u&wY3%zN6^eH".toList])] ∧
    (["Qm4v!pZ8#xW1$aK".toList] ≠ ["Rt5u&wY3%zN6^eH".toList] →
      ∀ kv ∈ (RunState.mk [] (some none) [("x.py".toList, ["Rt5u&wY3%zN6^eH".toList])]).report,
        kv.2 ≠ ["Qm4v!pZ8#xW1$aK".toList]) :=
  C10_basename_overwrite (fun _ => none) canonicalOrder []
    ("a/x.py".toList, "k Qm4v!pZ8#xW1$aK".toList)
    ("b/x.py".toList, "k Rt5u&wY3%zN6^eH".toList)
    (RunState.mk [] (some none) [("x.py".toList, ["Qm4v!pZ8#xW1$aK".toList])])
    (RunState.mk [] (some none) [("x.py".toList, ["Rt5u&wY3%zN6^eH".toList])])
    ["Qm4v!pZ8#xW1$aK".toList] ["Rt5u&wY3%zN6^eH".toList]
    (by decide) (by decide) (by decide) (by decide) (by decide)
